import Mathlib

/-!
Verification of the heredity exact-inference engine (`Ex3_Heredity/heredity.py`).

The Python code is shallowly embedded as follows.

* Python floats are modelled as exact rationals `ℚ`; all model constants
  (0.96, 0.03, 0.01, 0.65, …) are rational literals, and the code only
  multiplies, adds and divides them.
* A person record (one CSV row) is the structure `Person` with the fields
  `name`, `mother`, `father` (optional names) and `trait` (optional Bool,
  `none` meaning the observation is unknown).
* The Python `set`s `one_gene`, `two_genes`, `have_trait` and the set of
  names are modelled as `List String` used up to membership; `powerset`
  produces every subset of a duplicate-free list exactly once (the spec
  requires no ordering guarantee on the enumeration, so the production
  order of `itertools.combinations` is not modelled).
* The `probabilities` dict is an association list `List (String × Dist)`
  in insertion order, where `Dist` holds the five buckets
  `gene[0], gene[1], gene[2], trait[True], trait[False]` as fields.
* `normalize` mutates the dict and raises `ZeroDivisionError` when a
  person's bucket sum is zero; it is embedded as an `Option`-returning
  function, `none` standing for the raised exception.
-/

namespace Heredity

/-- A person record: CSV row `name, mother, father, trait` as loaded by
`load_data` (`trait` is `1`/`0`/blank, i.e. `some true`/`some false`/`none`). -/
structure Person where
  name : String
  mother : Option String
  father : Option String
  trait : Option Bool
deriving DecidableEq

/-- Mutation probability `PROBS["mutation"]` = 0.01. -/
def mu : ℚ := 1 / 100

/-- Gene prior `PROBS["gene"]`: unconditional priors 0.96 / 0.03 / 0.01 for 0/1/2 copies.
Keys other than 0, 1, 2 do not exist in the Python dict; they map to the junk
value 0 here (such a lookup is unreachable under the enumerator's
disjointness precondition, see the safety theorem for C9). -/
def probsGene : Nat → ℚ
  | 0 => 96 / 100
  | 1 => 3 / 100
  | 2 => 1 / 100
  | _ => 0

/-- Emission table `PROBS["trait"]`: emission probability of the trait value given the gene
count.  Keys other than 0, 1, 2 map to the junk value 0 (no such key exists
in the Python dict). -/
def probsTrait : Nat → Bool → ℚ
  | 0, true => 1 / 100
  | 0, false => 99 / 100
  | 1, true => 56 / 100
  | 1, false => 44 / 100
  | 2, true => 65 / 100
  | 2, false => 35 / 100
  | _, _ => 0

/-- Hypothesized gene count `n_genes = 1 * (x in one_gene) + 2 * (x in two_genes)` — the count
hypothesized for name `x` by the pair of sets. -/
def geneCount (x : String) (one_gene two_genes : List String) : Nat :=
  (if x ∈ one_gene then 1 else 0) + (if x ∈ two_genes then 2 else 0)

/-- Gene count of a parent reference: `people[child]['mother']` may in
principle be `None`, and in Python `None in s` is `False` for a set of
strings, giving count 0. -/
def parentGene (m : Option String) (one_gene two_genes : List String) : Nat :=
  match m with
  | some x => geneCount x one_gene two_genes
  | none => 0

/-- The per-parent factor
`PROBS['mutation'] * (n == 0) + 0.5 * (n == 1) + (1 - PROBS['mutation']) * (n == 2)`
(`mother_effect` / `father_effect`), with the Python booleans read as 0/1. -/
def transmission (n : Nat) : ℚ :=
  mu * (if n = 0 then 1 else 0) + (1 / 2) * (if n = 1 then 1 else 0) +
    (1 - mu) * (if n = 2 then 1 else 0)

/-- The `if n_genes == 0 / elif n_genes == 1 / else` combination of the two
parents' transmission probabilities in `joint_probability`. -/
def childGeneFactor (n : Nat) (me fe : ℚ) : ℚ :=
  if n = 0 then (1 - me) * (1 - fe)
  else if n = 1 then (1 - me) * fe + me * (1 - fe)
  else me * fe

/-- One iteration of the `for parent in parents` loop of
`joint_probability`: `PROBS['gene'][n_genes] * PROBS['trait'][n_genes][trait]`. -/
def parentFactor (one_gene two_genes have_trait : List String) (q : Person) : ℚ :=
  probsGene (geneCount q.name one_gene two_genes) *
    probsTrait (geneCount q.name one_gene two_genes) (decide (q.name ∈ have_trait))

/-- One iteration of the `for child in children` loop of
`joint_probability`. -/
def childFactor (one_gene two_genes have_trait : List String) (q : Person) : ℚ :=
  childGeneFactor (geneCount q.name one_gene two_genes)
      (transmission (parentGene q.mother one_gene two_genes))
      (transmission (parentGene q.father one_gene two_genes)) *
    probsTrait (geneCount q.name one_gene two_genes) (decide (q.name ∈ have_trait))

/-- The function `joint_probability(people, one_gene, two_genes, have_trait)`: the
population is split into `parents` (no mother reference) and `children`,
and the two running products `parents_joint` and `children_joint` are
multiplied. -/
def jointProbability (people : List Person)
    (one_gene two_genes have_trait : List String) : ℚ :=
  ((people.filter (fun q => q.mother.isNone)).map
      (parentFactor one_gene two_genes have_trait)).prod *
    ((people.filter (fun q => !q.mother.isNone)).map
      (childFactor one_gene two_genes have_trait)).prod

/-- Modelled from the spec (§4.2 step 3 of the design): a parent's
transmission probability is μ for gene count 0, 0.5 for 1, 1−μ for 2. -/
def specTransmission (n : Nat) : ℚ :=
  match n with
  | 0 => mu
  | 1 => 1 / 2
  | _ => 1 - mu

/-- Modelled from the spec (§4.2 step 3): combination of the two parents'
transmission probabilities into the child's gene-count probability. -/
def specChildCombine (n : Nat) (m f : ℚ) : ℚ :=
  match n with
  | 0 => (1 - m) * (1 - f)
  | 1 => (1 - m) * f + m * (1 - f)
  | _ => m * f

/-- Modelled from the spec (§4.2 steps 2–3): the factor contributed by one
person — founders (no parent references at all) use the gene prior, others
the parent-transmission combination, both times the trait emission. -/
def specPersonFactor (one_gene two_genes have_trait : List String) (q : Person) : ℚ :=
  if q.mother = none ∧ q.father = none then
    probsGene (geneCount q.name one_gene two_genes) *
      probsTrait (geneCount q.name one_gene two_genes) (decide (q.name ∈ have_trait))
  else
    specChildCombine (geneCount q.name one_gene two_genes)
        (specTransmission (parentGene q.mother one_gene two_genes))
        (specTransmission (parentGene q.father one_gene two_genes)) *
      probsTrait (geneCount q.name one_gene two_genes) (decide (q.name ∈ have_trait))

/-- Modelled from the spec (§4.2 step 4): the joint probability is the
product of the per-person factors over the whole population. -/
def specJointProbability (people : List Person)
    (one_gene two_genes have_trait : List String) : ℚ :=
  (people.map (specPersonFactor one_gene two_genes have_trait)).prod

/-- The function `powerset(s)`: every subset of `s` exactly once (for duplicate-free
`s`).  The chained-combinations production order of the Python version is
irrelevant to the spec ("no ordering guarantee is required") and is not
modelled. -/
def powerset {α : Type} : List α → List (List α)
  | [] => [[]]
  | a :: t => powerset t ++ (powerset t).map (fun s => a :: s)

/-- The check `fails_evidence` in `main`: some person has a known trait observation
that differs from membership in the candidate `have_trait` set. -/
def failsEvidence (people : List Person) (have_trait : List String) : Bool :=
  people.any fun q =>
    match q.trait with
    | none => false
    | some b => b != decide (q.name ∈ have_trait)

/-- The triple nested enumeration of `main`: all `have_trait` subsets that
survive the evidence check, then all `one_gene` subsets, then all
`two_genes` subsets of `names - one_gene`.  Each element is the argument
triple `(one_gene, two_genes, have_trait)` passed to `joint_probability`
and `update`. -/
def hypotheses (people : List Person) :
    List (List String × List String × List String) :=
  ((powerset (people.map Person.name)).filter
      (fun ht => !failsEvidence people ht)).flatMap fun ht =>
    (powerset (people.map Person.name)).flatMap fun og =>
      (powerset ((people.map Person.name).filter
          (fun x => !decide (x ∈ og)))).map fun tg => (og, tg, ht)

/-- One person's pair of bucket dictionaries:
`{"gene": {2: _, 1: _, 0: _}, "trait": {True: _, False: _}}`. -/
structure Dist where
  g0 : ℚ
  g1 : ℚ
  g2 : ℚ
  tT : ℚ
  tF : ℚ
deriving DecidableEq

/-- Lookup `d["gene"][n]`; keys other than 0, 1, 2 do not exist in the
Python dict and map to the junk value 0. -/
def Dist.geneGet (d : Dist) : Nat → ℚ
  | 0 => d.g0
  | 1 => d.g1
  | 2 => d.g2
  | _ => 0

/-- Lookup `d["trait"][t]`. -/
def Dist.traitGet (d : Dist) : Bool → ℚ
  | true => d.tT
  | false => d.tF

/-- Update `d["gene"][n] += p`; a key other than 0, 1, 2 does not exist in the
Python dict (such an access is unreachable under the enumerator's
disjointness precondition) and is modelled as a no-op. -/
def Dist.addGene (d : Dist) (n : Nat) (p : ℚ) : Dist :=
  match n with
  | 0 => { d with g0 := d.g0 + p }
  | 1 => { d with g1 := d.g1 + p }
  | 2 => { d with g2 := d.g2 + p }
  | _ => d

/-- Update `d["trait"][t] += p`. -/
def Dist.addTrait (d : Dist) (t : Bool) (p : ℚ) : Dist :=
  match t with
  | true => { d with tT := d.tT + p }
  | false => { d with tF := d.tF + p }

/-- The body of `update`'s loop for one person: add `p` into the gene
bucket of the hypothesized gene count and into the trait bucket of the
hypothesized trait. -/
def updateDist (one_gene two_genes have_trait : List String) (p : ℚ)
    (name : String) (d : Dist) : Dist :=
  (d.addGene (geneCount name one_gene two_genes) p).addTrait
    (decide (name ∈ have_trait)) p

/-- The function `update(probabilities, one_gene, two_genes, have_trait, p)`: every
person's entry in the table is updated in place. -/
def update (probabilities : List (String × Dist))
    (one_gene two_genes have_trait : List String) (p : ℚ) :
    List (String × Dist) :=
  probabilities.map fun e => (e.1, updateDist one_gene two_genes have_trait p e.1 e.2)

/-- The sum `sum_genes_probs`: the `for i in range(3)` summation loop, unrolled. -/
def geneSum (d : Dist) : ℚ := d.g0 + d.g1 + d.g2

/-- The sum `sum_trait_probs = probabilities[human]['trait'][True] + probabilities[human]['trait'][False]`. -/
def traitSum (d : Dist) : ℚ := d.tT + d.tF

/-- The divisions `normalize` performs on one person's entry (both sums are
computed before any division). -/
def normalizeDist (d : Dist) : Dist :=
  { g0 := d.g0 / geneSum d
    g1 := d.g1 / geneSum d
    g2 := d.g2 / geneSum d
    tT := d.tT / traitSum d
    tF := d.tF / traitSum d }

/-- The function `normalize(probabilities)`: each person's entry is divided by its own
bucket sums, in table order.  Python raises `ZeroDivisionError` as soon as
a person's gene-bucket or trait-bucket sum is zero; the exception is
modelled by the result `none`. -/
def normalize : List (String × Dist) → Option (List (String × Dist))
  | [] => some []
  | (h, d) :: rest =>
    if geneSum d = 0 ∨ traitSum d = 0 then none
    else
      match normalize rest with
      | none => none
      | some r => some ((h, normalizeDist d) :: r)

/-- The all-zero initial entry of `probabilities` in `main`. -/
def zeroDist : Dist := ⟨0, 0, 0, 0, 0⟩

/-- The `probabilities` table as initialized in `main`: one all-zero entry
per person, in population order. -/
def initTable (people : List Person) : List (String × Dist) :=
  people.map fun q => (q.name, zeroDist)

/-- The `probabilities` table after `main`'s full enumeration: one
`update` with the hypothesis's `joint_probability` per admissible
hypothesis. -/
def mainProbabilities (people : List Person) : List (String × Dist) :=
  (hypotheses people).foldl
    (fun t h => update t h.1 h.2.1 h.2.2 (jointProbability people h.1 h.2.1 h.2.2))
    (initTable people)

/-- The table `main` hands to the printing loop: the accumulated
probabilities after `normalize` (or `none` if `normalize` raised). -/
def mainResult (people : List Person) : Option (List (String × Dist)) :=
  normalize (mainProbabilities people)

/-! ### Basic facts about gene counts -/

theorem geneCount_eq_if {one_gene two_genes : List String}
    (hd : ∀ x ∈ one_gene, x ∉ two_genes) (x : String) :
    geneCount x one_gene two_genes =
      if x ∈ two_genes then 2 else if x ∈ one_gene then 1 else 0 := by
  unfold geneCount
  by_cases h1 : x ∈ one_gene <;> by_cases h2 : x ∈ two_genes <;>
    simp [h1, h2]
  exact absurd h2 (hd x h1)

theorem geneCount_le_two {one_gene two_genes : List String}
    (hd : ∀ x ∈ one_gene, x ∉ two_genes) (x : String) :
    geneCount x one_gene two_genes ≤ 2 := by
  rw [geneCount_eq_if hd]
  split <;> [omega; skip]
  split <;> omega

theorem parentGene_le_two {one_gene two_genes : List String}
    (hd : ∀ x ∈ one_gene, x ∉ two_genes) (m : Option String) :
    parentGene m one_gene two_genes ≤ 2 := by
  cases m with
  | none => exact Nat.zero_le 2
  | some x => exact geneCount_le_two hd x

/-- C9 — for disjoint `one_gene` and `two_genes` sets, the gene count
computed for any person in `joint_probability` and `update`, and the gene
count computed for any parent reference, is 0, 1 or 2, so every lookup into
`PROBS["gene"]`, `PROBS["trait"]` and the per-person bucket dicts is in
range (the out-of-range count 3 would need a person in both sets, which
the disjointness precondition excludes). -/
theorem gene_count_always_in_range (one_gene two_genes : List String)
    (hd : ∀ x ∈ one_gene, x ∉ two_genes) :
    (∀ x, geneCount x one_gene two_genes ≤ 2) ∧
      (∀ m, parentGene m one_gene two_genes ≤ 2) :=
  ⟨geneCount_le_two hd, parentGene_le_two hd⟩

theorem gene_count_always_in_range_witness :
    geneCount ("a") ["a"] ["b"] ≤ 2 :=
  (gene_count_always_in_range ["a"] ["b"] (by decide)).1 ("a")

/-! ### Bucket update lemmas and the accumulator (C8) -/

theorem traitGet_addGene (d : Dist) (n : Nat) (p : ℚ) (t : Bool) :
    (d.addGene n p).traitGet t = d.traitGet t := by
  rcases n with _ | _ | _ | n <;> cases t <;> rfl

theorem geneGet_addTrait (d : Dist) (t : Bool) (p : ℚ) (i : Nat) :
    (d.addTrait t p).geneGet i = d.geneGet i := by
  cases t <;> rcases i with _ | _ | _ | i <;> rfl

theorem geneGet_addGene_self (d : Dist) {n : Nat} (hn : n ≤ 2) (p : ℚ) :
    (d.addGene n p).geneGet n = d.geneGet n + p := by
  rcases n with _ | _ | _ | n
  · rfl
  · rfl
  · rfl
  · omega

theorem geneGet_addGene_ne (d : Dist) {n i : Nat} (h : i ≠ n) (p : ℚ) :
    (d.addGene n p).geneGet i = d.geneGet i := by
  rcases n with _ | _ | _ | n <;> rcases i with _ | _ | _ | i <;>
    first
      | rfl
      | exact absurd rfl h

theorem traitGet_addTrait_self (d : Dist) (t : Bool) (p : ℚ) :
    (d.addTrait t p).traitGet t = d.traitGet t + p := by
  cases t <;> rfl

theorem traitGet_addTrait_ne (d : Dist) {t t' : Bool} (h : t' ≠ t) (p : ℚ) :
    (d.addTrait t p).traitGet t' = d.traitGet t' := by
  cases t <;> cases t' <;> first | rfl | exact absurd rfl h

/-- C8 — `update` maps every person's entry through `updateDist`, and
`updateDist` adds exactly `p` to the gene bucket matching the person's
hypothesized gene count (2 if in `two_genes`, 1 if in `one_gene`, else 0)
and to the trait bucket matching membership in `have_trait`, leaving every
other bucket unchanged. -/
theorem update_adds_only_matching_buckets
    (probabilities : List (String × Dist)) (one_gene two_genes have_trait : List String)
    (p : ℚ) (hd : ∀ x ∈ one_gene, x ∉ two_genes) (name : String) (d : Dist) :
    update probabilities one_gene two_genes have_trait p =
        probabilities.map (fun e => (e.1, updateDist one_gene two_genes have_trait p e.1 e.2)) ∧
      (updateDist one_gene two_genes have_trait p name d).geneGet
          (if name ∈ two_genes then 2 else if name ∈ one_gene then 1 else 0) =
        d.geneGet (if name ∈ two_genes then 2 else if name ∈ one_gene then 1 else 0) + p ∧
      (∀ i, i ≠ (if name ∈ two_genes then 2 else if name ∈ one_gene then 1 else 0) →
        (updateDist one_gene two_genes have_trait p name d).geneGet i = d.geneGet i) ∧
      (updateDist one_gene two_genes have_trait p name d).traitGet (decide (name ∈ have_trait)) =
        d.traitGet (decide (name ∈ have_trait)) + p ∧
      (∀ t, t ≠ decide (name ∈ have_trait) →
        (updateDist one_gene two_genes have_trait p name d).traitGet t = d.traitGet t) := by
  have hbucket : geneCount name one_gene two_genes =
      if name ∈ two_genes then 2 else if name ∈ one_gene then 1 else 0 :=
    geneCount_eq_if hd name
  refine ⟨rfl, ?_, ?_, ?_, ?_⟩
  · rw [updateDist, geneGet_addTrait, ← hbucket,
      geneGet_addGene_self d (geneCount_le_two hd name) p]
  · intro i hi
    rw [updateDist, geneGet_addTrait, geneGet_addGene_ne d (hbucket ▸ hi) p]
  · rw [updateDist, traitGet_addTrait_self]
    rw [traitGet_addGene]
  · intro t ht
    rw [updateDist, traitGet_addTrait_ne _ ht, traitGet_addGene]

theorem update_adds_only_matching_buckets_witness :
    (updateDist ["a"] ["b"] ["a"] 1 "a" zeroDist).geneGet
        (if "a" ∈ ["b"] then 2 else if "a" ∈ ["a"] then 1 else 0) =
      zeroDist.geneGet (if "a" ∈ ["b"] then 2 else if "a" ∈ ["a"] then 1 else 0) + 1 :=
  (update_adds_only_matching_buckets [] ["a"] ["b"] ["a"] 1 (by decide) "a" zeroDist).2.1

/-! ### Noninterference of the observed traits (C10) -/

/-- C10 — `joint_probability` never reads the recorded trait
observations: replacing every person's observed `trait` field by an
arbitrary value (keeping names and parent references) leaves its result
unchanged for every hypothesis triple. -/
theorem joint_probability_ignores_observations
    (people : List Person) (one_gene two_genes have_trait : List String)
    (f : Person → Option Bool) :
    jointProbability (people.map fun q => ⟨q.name, q.mother, q.father, f q⟩)
        one_gene two_genes have_trait =
      jointProbability people one_gene two_genes have_trait := by
  unfold jointProbability
  rw [List.filter_map, List.filter_map, List.map_map, List.map_map]
  rfl

/-! ### The joint probability agrees with the spec's per-person product (C1) -/

theorem prod_filter_split (people : List Person) (f g : Person → ℚ)
    (p : Person → Bool) :
    ((people.filter p).map f).prod * ((people.filter fun q => !p q).map g).prod =
      (people.map fun q => if p q then f q else g q).prod := by
  induction people with
  | nil => simp
  | cons q rest ih =>
    by_cases hq : p q
    · have h1 : List.filter p (q :: rest) = q :: List.filter p rest := by
        simp [List.filter_cons, hq]
      have h2 : List.filter (fun x => !p x) (q :: rest) =
          List.filter (fun x => !p x) rest := by
        simp [List.filter_cons, hq]
      rw [h1, h2, List.map_cons, List.prod_cons, List.map_cons, List.prod_cons,
        if_pos hq, mul_assoc, ih]
    · have h1 : List.filter p (q :: rest) = List.filter p rest := by
        simp [List.filter_cons, hq]
      have h2 : List.filter (fun x => !p x) (q :: rest) =
          q :: List.filter (fun x => !p x) rest := by
        simp [List.filter_cons, hq]
      rw [h1, h2, List.map_cons, List.prod_cons, List.map_cons, List.prod_cons,
        if_neg hq, mul_left_comm, ih]

theorem transmission_eq_spec {n : Nat} (hn : n ≤ 2) :
    transmission n = specTransmission n := by
  rcases n with _ | _ | _ | n
  · simp [transmission, specTransmission]
  · simp [transmission, specTransmission]
  · simp [transmission, specTransmission]
  · omega

theorem childGeneFactor_eq_spec (n : Nat) (me fe : ℚ) :
    childGeneFactor n me fe = specChildCombine n me fe := by
  rcases n with _ | _ | n <;> rfl

/-- C1 — for a population satisfying the founder/non-founder
precondition (mother and father references both absent or both present)
and disjoint `one_gene`/`two_genes` sets, `joint_probability` returns the
product, over founders, of `gene_prior[n] * trait_given_gene[n][trait]`
and, over non-founders, of the parent-transmission combination (μ / 0.5 /
1−μ per parent, combined by the 0/1/2-copy formula) times
`trait_given_gene[n][trait]`. -/
theorem joint_probability_matches_spec_formula (people : List Person)
    (one_gene two_genes have_trait : List String)
    (hpre : ∀ q ∈ people, q.mother = none ↔ q.father = none)
    (hd : ∀ x ∈ one_gene, x ∉ two_genes) :
    jointProbability people one_gene two_genes have_trait =
      specJointProbability people one_gene two_genes have_trait := by
  unfold jointProbability specJointProbability
  rw [prod_filter_split people (parentFactor one_gene two_genes have_trait)
    (childFactor one_gene two_genes have_trait) (fun q => q.mother.isNone)]
  refine congrArg List.prod (List.map_congr_left ?_)
  intro q hq
  cases hm : q.mother with
  | none =>
    have hf : q.father = none := (hpre q hq).mp hm
    simp only [hm, Option.isNone_none, if_true, specPersonFactor, hf,
      and_self, if_pos]
    rfl
  | some m =>
    have hisN : q.mother.isNone = false := by rw [hm]; rfl
    have hcond : ¬(q.mother = none ∧ q.father = none) := by
      rintro ⟨h, -⟩; rw [hm] at h; exact Option.noConfusion h
    rw [if_neg (by simp [hisN])]
    unfold specPersonFactor
    rw [if_neg hcond]
    unfold childFactor
    rw [childGeneFactor_eq_spec,
      transmission_eq_spec (parentGene_le_two hd q.mother),
      transmission_eq_spec (parentGene_le_two hd q.father)]

theorem joint_probability_matches_spec_formula_witness :
    jointProbability
        [⟨"m", none, none, none⟩, ⟨"f", none, none, none⟩,
          ⟨"c", some ("m"), some ("f"), none⟩] ["m"] ["c"] ["c"] =
      specJointProbability
        [⟨"m", none, none, none⟩, ⟨"f", none, none, none⟩,
          ⟨"c", some ("m"), some ("f"), none⟩] ["m"] ["c"] ["c"] :=
  joint_probability_matches_spec_formula _ ["m"] ["c"] ["c"]
    (by decide) (by decide)

/-! ### The two-generation literal value (C3) -/

/-- C3, counterexample — for the three-person population of one child
and two founder parents (all observations unknown) and the hypothesis that
everyone has 0 gene copies (trait-positive set empty), `joint_probability`
does *not* return `0.96 × 0.96 × (1-μ) × (1-μ)`: the claim forgets the
three trait-emission factors `PROBS['trait'][0][False] = 0.99` that
`joint_probability` always multiplies in. -/
theorem two_generation_literal_value_claim_false :
    jointProbability
        [⟨"m", none, none, none⟩, ⟨"f", none, none, none⟩,
          ⟨"c", some ("m"), some ("f"), none⟩] [] [] [] ≠
      ((96 : ℚ) / 100) ^ 2 * ((99 : ℚ) / 100) ^ 2 := by
  norm_num [jointProbability, parentFactor, childFactor, geneCount, parentGene,
    transmission, childGeneFactor, probsGene, probsTrait, mu, List.filter]

/-- C3, amended — for that population and hypothesis,
`joint_probability` returns `0.96² × (1-μ)²` *times the trait-emission
factor `0.99` for each of the three persons*, i.e.
`0.96² × 0.99² × 0.99³`. -/
theorem two_generation_literal_value :
    jointProbability
        [⟨"m", none, none, none⟩, ⟨"f", none, none, none⟩,
          ⟨"c", some ("m"), some ("f"), none⟩] [] [] [] =
      ((96 : ℚ) / 100) ^ 2 * ((99 : ℚ) / 100) ^ 2 * ((99 : ℚ) / 100) ^ 3 := by
  norm_num [jointProbability, parentFactor, childFactor, geneCount, parentGene,
    transmission, childGeneFactor, probsGene, probsTrait, mu, List.filter]

/-! ### The normalizer (C5, C6, C7) -/

theorem normalize_sound : ∀ {t r : List (String × Dist)}, normalize t = some r →
    r = t.map (fun e => (e.1, normalizeDist e.2)) ∧
      ∀ e ∈ t, geneSum e.2 ≠ 0 ∧ traitSum e.2 ≠ 0 := by
  intro t
  induction t with
  | nil =>
    intro r h
    simp only [normalize, Option.some.injEq] at h
    subst h
    simp
  | cons e rest ih =>
    intro r h
    obtain ⟨nm, d⟩ := e
    unfold normalize at h
    by_cases hz : geneSum d = 0 ∨ traitSum d = 0
    · rw [if_pos hz] at h
      exact Option.noConfusion h
    · rw [if_neg hz] at h
      cases hrest : normalize rest with
      | none => rw [hrest] at h; exact Option.noConfusion h
      | some r' =>
        rw [hrest] at h
        obtain ⟨hmap, hsums⟩ := ih hrest
        injection h with h
        subst h
        push_neg at hz
        refine ⟨by rw [hmap, List.map_cons], ?_⟩
        intro e' he'
        rcases List.mem_cons.mp he' with he' | he'
        · subst he'; exact hz
        · exact hsums e' he'

theorem normalize_complete : ∀ {t : List (String × Dist)},
    (∀ e ∈ t, geneSum e.2 ≠ 0 ∧ traitSum e.2 ≠ 0) →
    normalize t = some (t.map fun e => (e.1, normalizeDist e.2)) := by
  intro t
  induction t with
  | nil => intro _; rfl
  | cons e rest ih =>
    intro hz
    obtain ⟨nm, d⟩ := e
    have hd := hz (nm, d) (List.mem_cons_self _ _)
    unfold normalize
    rw [if_neg (by push_neg; exact hd), ih fun e' he' => hz e' (List.mem_cons_of_mem _ he'),
      List.map_cons]

theorem normalize_none_iff (t : List (String × Dist)) :
    normalize t = none ↔ ∃ e ∈ t, geneSum e.2 = 0 ∨ traitSum e.2 = 0 := by
  induction t with
  | nil => simp [normalize]
  | cons e rest ih =>
    obtain ⟨nm, d⟩ := e
    unfold normalize
    by_cases hz : geneSum d = 0 ∨ traitSum d = 0
    · rw [if_pos hz]
      simp only [true_iff]
      exact ⟨(nm, d), List.mem_cons_self _ _, hz⟩
    · rw [if_neg hz]
      cases hrest : normalize rest with
      | none =>
        simp only [true_iff]
        obtain ⟨e', he', hze'⟩ := ih.mp hrest
        exact ⟨e', List.mem_cons_of_mem _ he', hze'⟩
      | some r' =>
        simp only [reduceCtorEq, false_iff, not_exists]
        rintro e' ⟨he', hze'⟩
        rcases List.mem_cons.mp he' with he' | he'
        · subst he'; exact hz hze'
        · have : normalize rest = none := ih.mpr ⟨e', he', hze'⟩
          rw [hrest] at this
          exact Option.noConfusion this

theorem geneSum_normalizeDist {d : Dist} (h : geneSum d ≠ 0) :
    geneSum (normalizeDist d) = 1 := by
  unfold geneSum normalizeDist
  rw [div_add_div_same, div_add_div_same]
  exact div_self h

theorem traitSum_normalizeDist {d : Dist} (h : traitSum d ≠ 0) :
    traitSum (normalizeDist d) = 1 := by
  unfold traitSum normalizeDist
  rw [div_add_div_same]
  exact div_self h

/-- C5 — when every person's gene-bucket sum and trait-bucket sum are
nonzero, `normalize` completes and replaces each entry by the entry whose
buckets are the previous values divided by the previous sums; each
resulting gene distribution and trait distribution sums to exactly 1. -/
theorem normalize_rescales_each_distribution (t : List (String × Dist))
    (hz : ∀ e ∈ t, geneSum e.2 ≠ 0 ∧ traitSum e.2 ≠ 0) :
    normalize t = some (t.map fun e => (e.1, normalizeDist e.2)) ∧
      ∀ e ∈ t,
        (normalizeDist e.2).g0 = e.2.g0 / geneSum e.2 ∧
        (normalizeDist e.2).g1 = e.2.g1 / geneSum e.2 ∧
        (normalizeDist e.2).g2 = e.2.g2 / geneSum e.2 ∧
        (normalizeDist e.2).tT = e.2.tT / traitSum e.2 ∧
        (normalizeDist e.2).tF = e.2.tF / traitSum e.2 ∧
        geneSum (normalizeDist e.2) = 1 ∧
        traitSum (normalizeDist e.2) = 1 := by
  refine ⟨normalize_complete hz, fun e he => ?_⟩
  obtain ⟨hg, ht⟩ := hz e he
  exact ⟨rfl, rfl, rfl, rfl, rfl, geneSum_normalizeDist hg, traitSum_normalizeDist ht⟩

theorem normalize_rescales_each_distribution_witness :
    normalize [("a", (⟨1, 0, 0, 1, 0⟩ : Dist))] =
      some ([("a", (⟨1, 0, 0, 1, 0⟩ : Dist))].map fun e => (e.1, normalizeDist e.2)) :=
  (normalize_rescales_each_distribution [("a", ⟨1, 0, 0, 1, 0⟩)]
    (by simp [geneSum, traitSum])).1

/-- C6 — `normalize` fails (returns `none`, modelling Python's
`ZeroDivisionError`) iff some person's three gene entries sum to exactly
zero or their two trait entries sum to exactly zero; when every person's
sums are nonzero it completes; and when the enumeration of `main` produced
no admissible hypothesis at all, the accumulated table is still all zero
and `main`'s normalization step fails this way. -/
theorem normalize_division_by_zero_iff (t : List (String × Dist))
    (people : List Person) :
    (normalize t = none ↔ ∃ e ∈ t, geneSum e.2 = 0 ∨ traitSum e.2 = 0) ∧
      ((∀ e ∈ t, geneSum e.2 ≠ 0 ∧ traitSum e.2 ≠ 0) → ∃ r, normalize t = some r) ∧
      (people ≠ [] → hypotheses people = [] → mainResult people = none) := by
  refine ⟨normalize_none_iff t, fun hz => ⟨_, normalize_complete hz⟩, ?_⟩
  intro hne hemp
  unfold mainResult mainProbabilities
  rw [hemp, List.foldl_nil]
  cases people with
  | nil => exact absurd rfl hne
  | cons q rest =>
    rw [normalize_none_iff]
    exact ⟨(q.name, zeroDist), List.mem_cons_self _ _, Or.inl (by norm_num [geneSum, zeroDist])⟩

theorem normalize_division_by_zero_iff_witness :
    mainResult [⟨"a", none, none, some true⟩, ⟨"a", none, none, some false⟩] = none :=
  (normalize_division_by_zero_iff []
    [⟨"a", none, none, some true⟩, ⟨"a", none, none, some false⟩]).2.2
    (by decide) (by decide)

theorem normalizeDist_of_sums_one {d : Dist} (hg : geneSum d = 1)
    (ht : traitSum d = 1) : normalizeDist d = d := by
  unfold normalizeDist
  rw [hg, ht]
  simp only [div_one]

/-- C7 — `normalize` is idempotent: if a first application succeeded,
applying it again returns the same table unchanged. -/
theorem normalize_idempotent (t r : List (String × Dist))
    (h : normalize t = some r) : normalize r = some r := by
  obtain ⟨hmap, hz⟩ := normalize_sound h
  subst hmap
  have hz' : ∀ e' ∈ t.map (fun e => (e.1, normalizeDist e.2)),
      geneSum e'.2 ≠ 0 ∧ traitSum e'.2 ≠ 0 := by
    intro e' he'
    obtain ⟨e, he, rfl⟩ := List.mem_map.mp he'
    obtain ⟨hg, ht⟩ := hz e he
    rw [geneSum_normalizeDist hg, traitSum_normalizeDist ht]
    exact ⟨one_ne_zero, one_ne_zero⟩
  rw [normalize_complete hz']
  congr 1
  rw [List.map_map]
  refine List.map_congr_left fun e he => ?_
  obtain ⟨hg, ht⟩ := hz e he
  show ((e.1, normalizeDist (normalizeDist e.2)) : String × Dist) = (e.1, normalizeDist e.2)
  rw [normalizeDist_of_sums_one (geneSum_normalizeDist hg) (traitSum_normalizeDist ht)]

theorem normalize_idempotent_witness :
    normalize [("a", (⟨1, 0, 0, 1, 0⟩ : Dist))] = some [("a", (⟨1, 0, 0, 1, 0⟩ : Dist))] :=
  normalize_idempotent [("a", ⟨1, 0, 0, 1, 0⟩)] [("a", ⟨1, 0, 0, 1, 0⟩)]
    (by simp [normalize, geneSum, traitSum, normalizeDist])

/-! ### The hypothesis enumerator (C2) -/

theorem mem_powerset {α : Type} {s l : List α} :
    s ∈ powerset l ↔ s.Sublist l := by
  induction l generalizing s with
  | nil =>
    simp only [powerset, List.mem_singleton, List.sublist_nil]
  | cons a t ih =>
    simp only [powerset, List.mem_append, List.mem_map]
    constructor
    · rintro (hs | ⟨s', hs', rfl⟩)
      · exact (ih.mp hs).cons a
      · exact (ih.mp hs').cons₂ a
    · intro h
      rcases List.sublist_cons_iff.mp h with h | ⟨r, rfl, hr⟩
      · exact Or.inl (ih.mpr h)
      · exact Or.inr ⟨r, ih.mpr hr, rfl⟩

theorem length_powerset {α : Type} (l : List α) :
    (powerset l).length = 2 ^ l.length := by
  induction l with
  | nil => rfl
  | cons a t ih =>
    simp only [powerset, List.length_append, List.length_map, ih,
      List.length_cons, pow_succ]
    omega

theorem not_mem_of_mem_powerset {α : Type} {a : α} {s l : List α}
    (hs : s ∈ powerset l) (ha : a ∉ l) : a ∉ s :=
  fun h => ha ((mem_powerset.mp hs).subset h)

theorem nodup_powerset {α : Type} {l : List α} (hl : l.Nodup) :
    (powerset l).Nodup := by
  induction l with
  | nil => simp [powerset]
  | cons a t ih =>
    obtain ⟨ha, ht⟩ := List.nodup_cons.mp hl
    refine (ih ht).append ((ih ht).map fun x y h => ?_) ?_
    · injection h
    · intro s hs hs'
      obtain ⟨s', _, rfl⟩ := List.mem_map.mp hs'
      exact not_mem_of_mem_powerset hs ha (List.mem_cons_self a s')

theorem failsEvidence_cons (q : Person) (rest : List Person) (ht : List String) :
    failsEvidence (q :: rest) ht =
      ((match q.trait with
        | none => false
        | some b => b != decide (q.name ∈ ht)) || failsEvidence rest ht) := rfl

theorem failsEvidence_cons_name {rest : List Person} {a : String}
    (ha : ∀ q ∈ rest, q.name ≠ a) (ht : List String) :
    failsEvidence rest (a :: ht) = failsEvidence rest ht := by
  induction rest with
  | nil => rfl
  | cons q rest ih =>
    rw [failsEvidence_cons, failsEvidence_cons,
      ih fun q' hq' => ha q' (List.mem_cons_of_mem _ hq')]
    cases hb : q.trait with
    | none => rfl
    | some b =>
      have : decide (q.name ∈ a :: ht) = decide (q.name ∈ ht) := by
        simp [List.mem_cons, ha q (List.mem_cons_self _ _)]
      rw [this]

theorem consistent_count : ∀ (people : List Person),
    (people.map Person.name).Nodup →
    ((powerset (people.map Person.name)).filter
        fun ht => !failsEvidence people ht).length =
      2 ^ people.countP fun q => q.trait.isNone := by
  intro people
  induction people with
  | nil => intro _; rfl
  | cons q rest ih =>
    intro hn
    obtain ⟨hq, hn'⟩ := List.nodup_cons.mp (List.map_cons Person.name q rest ▸ hn)
    have hname : ∀ q' ∈ rest, q'.name ≠ q.name := by
      intro q' hq' h
      exact hq (h ▸ List.mem_map_of_mem Person.name hq')
    have hcons : ∀ ht ∈ powerset (rest.map Person.name), q.name ∉ ht :=
      fun ht hht => not_mem_of_mem_powerset hht hq
    show ((powerset (q.name :: rest.map Person.name)).filter _).length = _
    rw [show powerset (q.name :: rest.map Person.name) =
        powerset (rest.map Person.name) ++
          (powerset (rest.map Person.name)).map (fun s => q.name :: s) from rfl,
      List.filter_append, List.filter_map, List.length_append, List.length_map]
    cases hb : q.trait with
    | none =>
      have h1 : (powerset (rest.map Person.name)).filter
            (fun ht => !failsEvidence (q :: rest) ht) =
          (powerset (rest.map Person.name)).filter
            (fun ht => !failsEvidence rest ht) := by
        refine List.filter_congr fun ht hht => ?_
        rw [failsEvidence_cons, hb, Bool.false_or]
      have h2 : (powerset (rest.map Person.name)).filter
            ((fun ht => !failsEvidence (q :: rest) ht) ∘ (fun s => q.name :: s)) =
          (powerset (rest.map Person.name)).filter
            (fun ht => !failsEvidence rest ht) := by
        refine List.filter_congr fun ht hht => ?_
        show (!failsEvidence (q :: rest) (q.name :: ht)) = _
        rw [failsEvidence_cons, hb, Bool.false_or, failsEvidence_cons_name hname]
      rw [h1, h2, ih hn', List.countP_cons, if_pos (by rw [hb]; rfl)]
      rw [pow_succ]
      omega
    | some b =>
      have hhead1 : ∀ ht ∈ powerset (rest.map Person.name),
          failsEvidence (q :: rest) ht = (b || failsEvidence rest ht) := by
        intro ht hht
        rw [failsEvidence_cons, hb]
        have : decide (q.name ∈ ht) = false := decide_eq_false (hcons ht hht)
        rw [this]
        cases b <;> rfl
      have hhead2 : ∀ ht ∈ powerset (rest.map Person.name),
          failsEvidence (q :: rest) (q.name :: ht) = (!b || failsEvidence rest ht) := by
        intro ht hht
        rw [failsEvidence_cons, hb, failsEvidence_cons_name hname]
        have : decide (q.name ∈ q.name :: ht) = true :=
          decide_eq_true (List.mem_cons_self _ _)
        rw [this]
        cases b <;> rfl
      cases b with
      | true =>
        have h1 : (powerset (rest.map Person.name)).filter
              (fun ht => !failsEvidence (q :: rest) ht) = [] := by
          rw [List.filter_congr fun ht hht => by
            rw [show (!failsEvidence (q :: rest) ht) = false by
              rw [hhead1 ht hht]; rfl]]
          exact List.filter_false _
        have h2 : (powerset (rest.map Person.name)).filter
              ((fun ht => !failsEvidence (q :: rest) ht) ∘ (fun s => q.name :: s)) =
            (powerset (rest.map Person.name)).filter
              (fun ht => !failsEvidence rest ht) := by
          refine List.filter_congr fun ht hht => ?_
          show (!failsEvidence (q :: rest) (q.name :: ht)) = _
          rw [hhead2 ht hht, Bool.not_true, Bool.false_or]
        rw [h1, h2, ih hn', List.countP_cons, if_neg (by rw [hb]; simp)]
        simp
      | false =>
        have h1 : (powerset (rest.map Person.name)).filter
              (fun ht => !failsEvidence (q :: rest) ht) =
            (powerset (rest.map Person.name)).filter
              (fun ht => !failsEvidence rest ht) := by
          refine List.filter_congr fun ht hht => ?_
          rw [hhead1 ht hht, Bool.false_or]
        have h2 : (powerset (rest.map Person.name)).filter
              ((fun ht => !failsEvidence (q :: rest) ht) ∘ (fun s => q.name :: s)) = [] := by
          rw [List.filter_congr fun ht hht => by
            show (!failsEvidence (q :: rest) (q.name :: ht)) = false
            rw [hhead2 ht hht]; rfl]
          exact List.filter_false _
        rw [h1, h2, ih hn', List.countP_cons, if_neg (by rw [hb]; simp)]
        simp

theorem sum_pow_filter : ∀ (l : List String), l.Nodup →
    ((powerset l).map fun og =>
        2 ^ (l.filter fun x => !decide (x ∈ og)).length).sum = 3 ^ l.length := by
  intro l
  induction l with
  | nil => intro _; rfl
  | cons a t ih =>
    intro hn
    obtain ⟨ha, hn'⟩ := List.nodup_cons.mp hn
    show ((powerset t ++ (powerset t).map fun s => a :: s).map _).sum = _
    rw [List.map_append, List.map_map, List.sum_append]
    have h1 : (powerset t).map (fun og =>
          2 ^ ((a :: t).filter fun x => !decide (x ∈ og)).length) =
        (powerset t).map (fun og =>
          2 * 2 ^ (t.filter fun x => !decide (x ∈ og)).length) := by
      refine List.map_congr_left fun og hog => ?_
      have haog : a ∉ og := not_mem_of_mem_powerset hog ha
      rw [List.filter_cons, if_pos (by simp [haog]), List.length_cons, pow_succ]
      ring
    have h2 : (powerset t).map ((fun og =>
          2 ^ ((a :: t).filter fun x => !decide (x ∈ og)).length) ∘ fun s => a :: s) =
        (powerset t).map (fun og =>
          2 ^ (t.filter fun x => !decide (x ∈ og)).length) := by
      refine List.map_congr_left fun og hog => ?_
      show 2 ^ ((a :: t).filter fun x => !decide (x ∈ a :: og)).length = _
      have hf : t.filter (fun x => !decide (x ∈ a :: og)) =
          t.filter fun x => !decide (x ∈ og) := by
        refine List.filter_congr fun x hx => ?_
        have hxa : x ≠ a := fun h => ha (h ▸ hx)
        simp [List.mem_cons, hxa]
      rw [List.filter_cons, if_neg (by simp), hf]
    rw [h1, h2, List.sum_map_mul_left, ih hn', List.length_cons, pow_succ]
    ring

theorem hypotheses_inner_length (names : List String) (hn : names.Nodup)
    (ht : List String) :
    ((powerset names).flatMap fun og =>
        (powerset (names.filter fun x => !decide (x ∈ og))).map
          fun tg => (og, tg, ht)).length = 3 ^ names.length := by
  rw [List.length_flatMap, ← sum_pow_filter names hn]
  refine congrArg List.sum (List.map_congr_left fun og hog => ?_)
  show ((powerset (names.filter fun x => !decide (x ∈ og))).map
    fun tg => (og, tg, ht)).length = _
  rw [List.length_map, length_powerset]

theorem countP_isNone_eq (people : List Person) :
    people.countP (fun q => q.trait.isNone) =
      people.length - people.countP fun q => q.trait.isSome := by
  induction people with
  | nil => rfl
  | cons q rest ih =>
    have hle : rest.countP (fun q => q.trait.isSome) ≤ rest.length :=
      List.countP_le_length _
    rw [List.countP_cons, List.countP_cons, List.length_cons]
    cases hb : q.trait <;> simp <;> omega

/-- C2 — for a population with `n` persons (distinct names) of which
`k` have a known trait observation, `main`'s triple nested loop calls
`joint_probability` and `update` exactly `2^(n-k) * 3^n` times; the
produced hypothesis triples are pairwise distinct, and a triple is
produced iff its components are subsets of the population with
`two_genes` drawn from the complement of `one_gene` and `have_trait`
consistent with every known observation. -/
theorem main_enumerates_each_admissible_hypothesis_once (people : List Person)
    (hn : (people.map Person.name).Nodup) :
    (hypotheses people).length =
        2 ^ (people.length - people.countP fun q => q.trait.isSome) *
          3 ^ people.length ∧
      (hypotheses people).Nodup ∧
      ∀ og tg ht, (og, tg, ht) ∈ hypotheses people ↔
        (og.Sublist (people.map Person.name) ∧
          tg.Sublist ((people.map Person.name).filter fun x => !decide (x ∈ og)) ∧
          ht.Sublist (people.map Person.name) ∧
          failsEvidence people ht = false) := by
  refine ⟨?_, ?_, ?_⟩
  · rw [hypotheses, List.length_flatMap]
    have hmap : (((powerset (people.map Person.name)).filter
          fun ht => !failsEvidence people ht).map
            (List.length ∘ fun ht => (powerset (people.map Person.name)).flatMap
              fun og => (powerset ((people.map Person.name).filter
                fun x => !decide (x ∈ og))).map fun tg => (og, tg, ht))) =
        (((powerset (people.map Person.name)).filter
          fun ht => !failsEvidence people ht).map
            fun _ => 3 ^ people.length) := by
      refine List.map_congr_left fun ht hht => ?_
      show ((powerset (people.map Person.name)).flatMap _).length = _
      rw [hypotheses_inner_length (people.map Person.name) hn ht, List.length_map]
    rw [hmap, List.map_const', List.sum_replicate, smul_eq_mul,
      consistent_count people hn, countP_isNone_eq]
  · rw [hypotheses, List.nodup_flatMap]
    constructor
    · intro ht hht
      rw [List.nodup_flatMap]
      constructor
      · intro og hog
        refine List.Nodup.map (fun x y h => ?_) (nodup_powerset (hn.filter _))
        exact congrArg (fun z => z.2.1) h
      · refine (nodup_powerset hn).imp ?_
        intro og1 og2 hne z hz1 hz2
        obtain ⟨tg1, _, rfl⟩ := List.mem_map.mp hz1
        obtain ⟨tg2, _, h2⟩ := List.mem_map.mp hz2
        exact hne (congrArg (fun z => z.1) h2.symm)
    · refine ((nodup_powerset hn).filter _).imp ?_
      intro ht1 ht2 hne z hz1 hz2
      obtain ⟨og1, _, hm1⟩ := List.mem_flatMap.mp hz1
      obtain ⟨tg1, _, rfl⟩ := List.mem_map.mp hm1
      obtain ⟨og2, _, hm2⟩ := List.mem_flatMap.mp hz2
      obtain ⟨tg2, _, h2⟩ := List.mem_map.mp hm2
      exact hne (congrArg (fun z => z.2.2) h2.symm)
  · intro og tg ht
    rw [hypotheses]
    simp only [List.mem_flatMap, List.mem_filter, List.mem_map, mem_powerset,
      Prod.mk.injEq]
    constructor
    · rintro ⟨ht', ⟨h1, h2⟩, og', h3, tg', h4, rfl, rfl, rfl⟩
      exact ⟨h3, h4, h1, by rwa [Bool.not_eq_true'] at h2⟩
    · rintro ⟨h1, h2, h3, h4⟩
      exact ⟨ht, ⟨h3, by rw [h4]; rfl⟩, og, h1, tg, h2, rfl, rfl, rfl⟩

theorem main_enumerates_each_admissible_hypothesis_once_witness :
    (hypotheses [⟨"a", none, none, some true⟩, ⟨"b", none, none, none⟩]).length =
      2 ^ (([⟨"a", none, none, some true⟩,
            (⟨"b", none, none, none⟩ : Person)] : List Person).length -
          ([⟨"a", none, none, some true⟩,
            (⟨"b", none, none, none⟩ : Person)] : List Person).countP
            fun q => q.trait.isSome) *
        3 ^ ([⟨"a", none, none, some true⟩,
            (⟨"b", none, none, none⟩ : Person)] : List Person).length :=
  (main_enumerates_each_admissible_hypothesis_once
    [⟨"a", none, none, some true⟩, ⟨"b", none, none, none⟩] (by decide)).1

/-! ### Accumulated table structure and degenerate posteriors (C4) -/

theorem foldl_update_pointwise {σ : Type} (F : σ → String → Dist → Dist) :
    ∀ (L : List σ) (t0 : List (String × Dist)),
    L.foldl (fun t h => t.map fun e => (e.1, F h e.1 e.2)) t0 =
      t0.map fun e => (e.1, L.foldl (fun d h => F h e.1 d) e.2) := by
  intro L
  induction L with
  | nil => intro t0; exact (List.map_id t0).symm
  | cons h L ih =>
    intro t0
    rw [List.foldl_cons, ih, List.map_map]
    rfl

theorem lookup_map_name (g : String → Dist) :
    ∀ (people : List Person) (nm : String), nm ∈ people.map Person.name →
    (people.map fun x => (x.name, g x.name)).lookup nm = some (g nm) := by
  intro people
  induction people with
  | nil => intro nm h; simp at h
  | cons x rest ih =>
    intro nm h
    by_cases he : nm = x.name
    · subst he
      show List.lookup x.name ((x.name, g x.name) :: (rest.map fun y => (y.name, g y.name))) =
        some (g x.name)
      simp [List.lookup]
    · have hbeq : (nm == x.name) = false := beq_eq_false_iff_ne.mpr he
      show List.lookup nm ((x.name, g x.name) :: _) = _
      rw [List.lookup, hbeq]
      refine ih nm ?_
      rcases List.mem_cons.mp (List.map_cons Person.name x rest ▸ h) with h' | h'
      · exact absurd h' he
      · exact h'

theorem trait_bucket_untouched (nm : String) (b : Bool)
    (L : List (List String × List String × List String))
    (f : List String × List String × List String → ℚ)
    (hL : ∀ h ∈ L, decide (nm ∈ h.2.2) = b) :
    ∀ d0 : Dist,
      (L.foldl (fun d h => updateDist h.1 h.2.1 h.2.2 (f h) nm d) d0).traitGet (!b) =
        d0.traitGet (!b) := by
  induction L with
  | nil => intro d0; rfl
  | cons h L ih =>
    intro d0
    rw [List.foldl_cons, ih fun h' hh' => hL h' (List.mem_cons_of_mem _ hh')]
    show ((d0.addGene _ _).addTrait (decide (nm ∈ h.2.2)) (f h)).traitGet (!b) = _
    rw [traitGet_addTrait_ne _ (by rw [hL h (List.mem_cons_self _ _)]; cases b <;> simp),
      traitGet_addGene]

theorem hypotheses_respect_known_traits {people : List Person} {q : Person}
    (hq : q ∈ people) {b : Bool} (hb : q.trait = some b) :
    ∀ h ∈ hypotheses people, decide (q.name ∈ h.2.2) = b := by
  intro h hh
  rw [hypotheses] at hh
  obtain ⟨ht', hht', hinner⟩ := List.mem_flatMap.mp hh
  obtain ⟨og', _, hog'⟩ := List.mem_flatMap.mp hinner
  obtain ⟨tg', _, rfl⟩ := List.mem_map.mp hog'
  obtain ⟨-, hfe⟩ := List.mem_filter.mp hht'
  rw [Bool.not_eq_true'] at hfe
  have hna := List.any_eq_false.mp hfe q hq
  rw [hb] at hna
  have hbd : b = decide (q.name ∈ ht') := by
    by_contra hne
    exact hna (bne_iff_ne.mpr hne)
  exact hbd.symm

/-- C4 — after `main`'s full enumeration, accumulation and
normalization, a person whose trait observation is known ends with trait
posterior exactly 1 for the observed value and exactly 0 for the other
value (provided normalization succeeded, i.e. the accumulated sums were
nonzero). -/
theorem known_trait_gives_degenerate_posterior (people : List Person)
    (q : Person) (hq : q ∈ people) (b : Bool) (hb : q.trait = some b)
    (hr : mainResult people ≠ none) :
    ∃ r d, mainResult people = some r ∧ r.lookup q.name = some d ∧
      d.traitGet b = 1 ∧ d.traitGet (!b) = 0 := by
  obtain ⟨r, hr'⟩ := Option.ne_none_iff_exists'.mp hr
  have hr'' : normalize (mainProbabilities people) = some r := hr'
  obtain ⟨hmap, hz⟩ := normalize_sound hr''
  have htab : mainProbabilities people = people.map fun x =>
      (x.name, (hypotheses people).foldl
        (fun d h => updateDist h.1 h.2.1 h.2.2
          (jointProbability people h.1 h.2.1 h.2.2) x.name d) zeroDist) := by
    refine Eq.trans (foldl_update_pointwise
      (fun (h : List String × List String × List String) (nm : String) (d : Dist) =>
        updateDist h.1 h.2.1 h.2.2
          (jointProbability people h.1 h.2.1 h.2.2) nm d)
      (hypotheses people) (initTable people)) ?_
    rw [initTable, List.map_map]
    rfl
  have hname : q.name ∈ people.map Person.name := List.mem_map_of_mem _ hq
  set accD : String → Dist := fun nm => (hypotheses people).foldl
    (fun d h => updateDist h.1 h.2.1 h.2.2
      (jointProbability people h.1 h.2.1 h.2.2) nm d) zeroDist with haccD
  have hrlook : r.lookup q.name = some (normalizeDist (accD q.name)) := by
    rw [hmap, htab, List.map_map]
    exact lookup_map_name (fun nm => normalizeDist (accD nm)) people q.name hname
  have hmemt : (q.name, accD q.name) ∈ mainProbabilities people := by
    rw [htab]
    exact List.mem_map_of_mem _ hq
  obtain ⟨-, htz⟩ := hz _ hmemt
  have htF : (accD q.name).traitGet (!b) = zeroDist.traitGet (!b) :=
    trait_bucket_untouched q.name b (hypotheses people)
      (fun h => jointProbability people h.1 h.2.1 h.2.2)
      (hypotheses_respect_known_traits hq hb) zeroDist
  refine ⟨r, normalizeDist (accD q.name), hr', hrlook, ?_, ?_⟩
  · cases b with
    | true =>
      have h0 : (accD q.name).tF = 0 := htF
      have hts : traitSum (accD q.name) = (accD q.name).tT := by
        rw [traitSum, h0, add_zero]
      show (accD q.name).tT / traitSum (accD q.name) = 1
      rw [hts]
      exact div_self fun h => htz (by rw [hts, h])
    | false =>
      have h0 : (accD q.name).tT = 0 := htF
      have hts : traitSum (accD q.name) = (accD q.name).tF := by
        rw [traitSum, h0, zero_add]
      show (accD q.name).tF / traitSum (accD q.name) = 1
      rw [hts]
      exact div_self fun h => htz (by rw [hts, h])
  · cases b with
    | true =>
      have h0 : (accD q.name).tF = 0 := htF
      show (accD q.name).tF / traitSum (accD q.name) = 0
      rw [h0, zero_div]
    | false =>
      have h0 : (accD q.name).tT = 0 := htF
      show (accD q.name).tT / traitSum (accD q.name) = 0
      rw [h0, zero_div]

theorem known_trait_gives_degenerate_posterior_witness :
    ∃ r d, mainResult [⟨"a", none, none, some true⟩] = some r ∧
      r.lookup ("a") = some d ∧ d.traitGet true = 1 ∧ d.traitGet (!true) = 0 :=
  known_trait_gives_degenerate_posterior [⟨"a", none, none, some true⟩]
    ⟨"a", none, none, some true⟩ (List.mem_singleton.mpr rfl) true rfl
    (by
      norm_num [mainResult, mainProbabilities, hypotheses, powerset, failsEvidence,
        initTable, update, updateDist, Dist.addGene, Dist.addTrait, geneCount,
        jointProbability, parentFactor, childFactor, probsGene, probsTrait, mu,
        normalize, geneSum, traitSum, zeroDist, List.filter, List.foldl]
      exact fun h => Option.noConfusion h)

end Heredity
